import Mathlib

/-!
Verification of the crossword CSP solver in `src/crossword/generate.py`
(class `CrosswordCreator`).  The structural model (`crossword.py`: class
`Variable`, class `Crossword` with `words`, `variables`, `overlaps`,
`neighbors`) is not part of the source tree and is modelled from the spec.
Words are lists of characters; the per-slot domain store is a function from
slots to lists of candidate words (Python uses sets of strings; list order
stands in for the set iteration order, and all set-level facts proved here
are order-independent).  Python `list.sort` is a stable sort over a total
preorder; a stable sort is extensionally unique, so the structural stable
insertion sort used here computes the same list.
-/

/-- Modelled from the spec: a Slot (CSP variable) from the missing
`crossword.py`, identified by its starting cell (row, column), a direction
(ACROSS or DOWN) and a length; two slots are equal iff all three attributes
match.  `len(variable)` in the source is the `length` field. -/
structure Slot where
  i : Nat
  j : Nat
  down : Bool
  length : Nat
deriving DecidableEq

/-- A candidate word, as its list of characters. -/
abbrev Word := List Char

/-- Modelled from the spec: the Structural Model from the missing
`crossword.py`: the finite list of slots, the shared vocabulary seeding
every initial domain, and for every ordered slot pair an optional overlap
(index into the first word, index into the second word). -/
structure Crossword where
  vars : List Slot
  words : List Word
  overlaps : Slot → Slot → Option (Nat × Nat)

/-- Modelled from the spec: slot `y` is a neighbor of `x` iff an overlap
exists between them (`Crossword.neighbors` in the missing `crossword.py`). -/
def Crossword.neighbors (cw : Crossword) (x : Slot) : List Slot :=
  cw.vars.filter (fun y => decide (y ≠ x) && (cw.overlaps x y).isSome)

/-- Well-formedness of the Structural Model, as the spec describes it:
overlaps exist only between distinct slots and are symmetric with the two
indices exchanged. -/
abbrev Crossword.Wf (cw : Crossword) : Prop :=
  (∀ x ∈ cw.vars, cw.overlaps x x = none) ∧
  (∀ x ∈ cw.vars, ∀ y ∈ cw.vars,
    cw.overlaps y x = (cw.overlaps x y).map (fun p => (p.2, p.1)))

/-- The Domain Store: per-slot list of still-candidate words
(`self.domains` in the source). -/
abbrev Domains := Slot → List Word

/-- `CrosswordCreator.__init__`: every slot domain starts as a copy of the
full vocabulary. -/
def initialDomains (cw : Crossword) : Domains := fun _ => cw.words

/-- `CrosswordCreator.enforce_node_consistency`: remove from each slot
domain every word whose length differs from the slot length. -/
def enforce_node_consistency (cw : Crossword) (doms : Domains) : Domains :=
  fun v => (doms v).filter (fun w => decide (w.length = v.length))

/-- The support test inside `CrosswordCreator.revise`: some word in the
domain of `y` agrees with `w` at the overlap indices `(i, j)`. -/
def hasSupport (doms : Domains) (y : Slot) (i j : Nat) (w : Word) : Bool :=
  (doms y).any (fun wy => decide (w.get? i = wy.get? j))

/-- `CrosswordCreator.revise x y`: if an overlap is defined for `(x, y)`,
remove from the domain of `x` every word with no support in the domain of
`y`; return whether anything was removed, together with the updated store
(the source mutates `self.domains` in place). -/
def revise (cw : Crossword) (doms : Domains) (x y : Slot) : Bool × Domains :=
  match cw.overlaps x y with
  | none => (false, doms)
  | some (i, j) =>
    if (doms x).all (fun w => hasSupport doms y i j w) then (false, doms)
    else (true, fun v =>
      if v = x then (doms x).filter (fun w => hasSupport doms y i j w)
      else doms v)

/-- The default AC-3 queue: all ordered pairs `(x, y)` with `y` a neighbor
of `x` (built in `CrosswordCreator.ac3` when `arcs is None`). -/
def allArcs (cw : Crossword) : List (Slot × Slot) :=
  cw.vars.flatMap (fun x => (cw.neighbors x).map (fun y => (x, y)))

/-- Total number of candidates over the declared slots; part of the
termination measure of the AC-3 loop. -/
def domSize (cw : Crossword) (doms : Domains) : Nat :=
  (cw.vars.map (fun v => (doms v).length)).sum

/-- Number of queued arcs whose first component is not a declared slot;
part of the termination measure of the AC-3 loop (such arcs are never
re-enqueued, so each is processed at most once). -/
def badCount (cw : Crossword) (queue : List (Slot × Slot)) : Nat :=
  (queue.filter (fun a => !decide (a.1 ∈ cw.vars))).length

/-- Termination measure of the AC-3 loop: it strictly decreases at every
loop iteration. -/
def ac3Measure (cw : Crossword) (doms : Domains) (queue : List (Slot × Slot)) : Nat :=
  queue.length + (cw.vars.length + 1) * (domSize cw doms + badCount cw queue)

/-- The arcs `(z, x)` enqueued by `CrosswordCreator.ac3` after a revision
of `x` with respect to `y`: one per neighbor `z` of `x` other than `y`. -/
def enqueueArcs (cw : Crossword) (x y : Slot) : List (Slot × Slot) :=
  ((cw.neighbors x).filter (fun z => decide (z ≠ y))).map (fun z => (z, x))

/-- The `while queue` loop of `CrosswordCreator.ac3`, with explicit fuel so
that the definition is structural (the fuel is instantiated with a proven
upper bound on the number of iterations). -/
def ac3Fuel (cw : Crossword) : Nat → Domains → List (Slot × Slot) → Domains
  | 0, doms, _ => doms
  | _ + 1, doms, [] => doms
  | n + 1, doms, (x, y) :: rest =>
    let r := revise cw doms x y
    if r.1 then ac3Fuel cw n r.2 (rest ++ enqueueArcs cw x y)
    else ac3Fuel cw n r.2 rest

/-- The AC-3 propagation loop run to completion (the fuel bound is proved
sufficient below, so the zero-fuel branch is never taken). -/
def ac3Run (cw : Crossword) (doms : Domains) (queue : List (Slot × Slot)) : Domains :=
  ac3Fuel cw (ac3Measure cw doms queue + 1) doms queue

/-- `CrosswordCreator.ac3`: process the given queue (the default queue of
all arcs when none is given), then return `false` iff some slot domain
ended up empty, together with the updated store. -/
def ac3 (cw : Crossword) (doms : Domains) (arcs : Option (List (Slot × Slot))) :
    Bool × Domains :=
  let queue := match arcs with
    | none => allArcs cw
    | some a => a
  let doms2 := ac3Run cw doms queue
  (cw.vars.all (fun v => !(doms2 v).isEmpty), doms2)

/-- A (partial) assignment: association list from slots to words (the
Python dict `assignment`; keys are unique along every execution path). -/
abbrev Assignment := List (Slot × Word)

/-- The slots currently assigned (the dict key view). -/
def assignedVars (a : Assignment) : List Slot := a.map Prod.fst

/-- `CrosswordCreator.assignment_complete`: the key set of the assignment
equals the set of declared slots. -/
def assignment_complete (cw : Crossword) (a : Assignment) : Bool :=
  (assignedVars a).all (fun v => decide (v ∈ cw.vars)) &&
  cw.vars.all (fun v => decide (v ∈ assignedVars a))

/-- `CrosswordCreator.consistent`: every assigned word has the length of
its slot, and every pair of distinct assigned slots with a defined overlap
agrees at the overlap indices. -/
def consistent (cw : Crossword) (a : Assignment) : Bool :=
  a.all (fun p =>
    decide (p.1.length = p.2.length) &&
    a.all (fun q =>
      if p.1 = q.1 then true
      else
        match cw.overlaps p.1 q.1 with
        | none => true
        | some (i, j) => decide (p.2.get? i = q.2.get? j)))

/-- Stable insertion into a sorted list: the new element goes before the
first element it compares less-or-equal to.  Together with `stableSort`
this computes exactly what the stable Python `list.sort` computes for a
total preorder. -/
def stableInsert (le : α → α → Bool) (a : α) : List α → List α
  | [] => [a]
  | b :: bs => if le a b then a :: b :: bs else b :: stableInsert le a bs

/-- Stable sort (insertion sort), modelling Python `list.sort(key=...)`. -/
def stableSort (le : α → α → Bool) : List α → List α
  | [] => []
  | a :: as_ => stableInsert le a (stableSort le as_)

/-- The count inside `CrosswordCreator.order_domain_values`: how many
candidates of unassigned neighbors the word `value` would rule out. -/
def countRuledOut (cw : Crossword) (doms : Domains) (var : Slot) (a : Assignment)
    (value : Word) : Nat :=
  ((cw.neighbors var).map (fun neighbor =>
    if neighbor ∈ assignedVars a then 0
    else
      match cw.overlaps var neighbor with
      | none => 0
      | some (i, j) =>
        ((doms neighbor).filter (fun nv => !decide (value.get? i = nv.get? j))).length)).sum

/-- `CrosswordCreator.order_domain_values`: the domain of `var` sorted
ascending by the number of neighbor candidates each word rules out. -/
def order_domain_values (cw : Crossword) (doms : Domains) (var : Slot)
    (a : Assignment) : List Word :=
  stableSort (fun v w => countRuledOut cw doms var a v ≤ countRuledOut cw doms var a w)
    (doms var)

/-- The sort key comparison of `CrosswordCreator.select_unassigned_variable`:
ascending domain size, ties broken by descending neighbor count. -/
def selectLe (cw : Crossword) (doms : Domains) (v w : Slot) : Bool :=
  decide ((doms v).length < (doms w).length) ||
  (decide ((doms v).length = (doms w).length) &&
   decide ((cw.neighbors w).length ≤ (cw.neighbors v).length))

/-- `CrosswordCreator.select_unassigned_variable`: sort the unassigned
slots by (domain size, minus degree) and return the first, or `none` when
every slot is assigned. -/
def select_unassigned_variable (cw : Crossword) (doms : Domains) (a : Assignment) :
    Option Slot :=
  (stableSort (selectLe cw doms)
    (cw.vars.filter (fun v => !decide (v ∈ assignedVars a)))).head?

/-- The `for value in self.order_domain_values(...)` loop of
`CrosswordCreator.backtrack`, with the recursive call abstracted as
`recurse`.  Note the source checks `self.consistent(assignment)` on the
assignment WITHOUT the tentative value, and threads the (never restored)
domain store through `self.ac3()`. -/
def btLoop (cw : Crossword) (recurse : Domains → Assignment → Option Assignment × Domains)
    (var : Slot) (a : Assignment) :
    List Word → Domains → Option Assignment × Domains
  | [], doms => (none, doms)
  | value :: rest, doms =>
    if consistent cw a then
      let r := ac3 cw doms none
      if r.1 then
        match recurse r.2 ((var, value) :: a) with
        | (some result, doms2) => (some result, doms2)
        | (none, doms2) => btLoop cw recurse var a rest doms2
      else btLoop cw recurse var a rest r.2
    else btLoop cw recurse var a rest doms

/-- `CrosswordCreator.backtrack`, with explicit fuel so the definition is
structural; the fuel is instantiated with the slot count plus one, which is
proved sufficient below.  The `none` branch of the selection is unreachable
along the executions of `solve` (Python would raise there). -/
def backtrackFuel (cw : Crossword) : Nat → Domains → Assignment → Option Assignment × Domains
  | 0, doms, _ => (none, doms)
  | n + 1, doms, a =>
    if assignment_complete cw a then (some a, doms)
    else
      match select_unassigned_variable cw doms a with
      | none => (none, doms)
      | some var => btLoop cw (backtrackFuel cw n) var a (order_domain_values cw doms var a) doms

/-- `CrosswordCreator.backtrack` run with sufficient fuel: the recursion
depth is bounded by the number of slots. -/
def backtrack (cw : Crossword) (doms : Domains) (a : Assignment) :
    Option Assignment × Domains :=
  backtrackFuel cw (cw.vars.length + 1) doms a

/-- `CrosswordCreator.solve`: node consistency, one global AC-3 pass (its
return value is ignored by the source), then backtracking search from the
empty assignment. -/
def solve (cw : Crossword) : Option Assignment :=
  let d1 := enforce_node_consistency cw (initialDomains cw)
  let d2 := (ac3 cw d1 none).2
  (backtrack cw d2 []).1

/-- Arc consistency of a single arc, as a Boolean check: every candidate of
`x` has a supporting candidate of `y` at the overlap indices. -/
def arcOK (cw : Crossword) (doms : Domains) (x y : Slot) : Bool :=
  match cw.overlaps x y with
  | none => true
  | some (i, j) => (doms x).all (fun w => hasSupport doms y i j w)

/-- Arc consistency of the whole store: every arc between a slot and one of
its neighbors is consistent. -/
def arcConsistentAll (cw : Crossword) (doms : Domains) : Bool :=
  cw.vars.all (fun x => (cw.neighbors x).all (fun y => arcOK cw doms x y))

/-! ### Concrete instances used as counterexamples and witnesses -/

/-- Slot across at cell (0,0), length 2. -/
def slotA : Slot := ⟨0, 0, false, 2⟩

/-- Slot down at cell (0,1), length 2; crosses `slotA` at cell (0,1),
character index 1 of `slotA` and 0 of `slotB`. -/
def slotB : Slot := ⟨0, 1, true, 2⟩

/-- The word "ab". -/
def wordAB : Word := ['a', 'b']

/-- The word "ba". -/
def wordBA : Word := ['b', 'a']

/-- The word "cd". -/
def wordCD : Word := ['c', 'd']

/-- Two crossing slots of length 2, overlap at index 1 of `slotA` and index
0 of `slotB`, vocabulary {"ab", "ba"}.  The solvable instance exhibiting the
missing tentative-value check of `backtrack`. -/
def cw1 : Crossword where
  vars := [slotA, slotB]
  words := [wordAB, wordBA]
  overlaps := fun x y =>
    if x = slotA ∧ y = slotB then some (1, 0)
    else if x = slotB ∧ y = slotA then some (0, 1)
    else none

/-- Same geometry as `cw1` with vocabulary {"ab", "cd"}: the two domains
have no compatible letter pair at the overlap, so the initial store is not
arc-consistent. -/
def cw2 : Crossword where
  vars := [slotA, slotB]
  words := [wordAB, wordCD]
  overlaps := fun x y =>
    if x = slotA ∧ y = slotB then some (1, 0)
    else if x = slotB ∧ y = slotA then some (0, 1)
    else none

/-- A single isolated slot of length 4 with a vocabulary containing no
word of length 4 (the degenerate scenario of the spec). -/
def cw3 : Crossword where
  vars := [⟨0, 0, false, 4⟩]
  words := [wordAB]
  overlaps := fun _ _ => none

/-! ### Stable sort lemmas -/

theorem stableInsert_perm (le : α → α → Bool) (a : α) (l : List α) :
    (stableInsert le a l).Perm (a :: l) := by
  induction l with
  | nil => simp [stableInsert]
  | cons b bs ih =>
    simp only [stableInsert]
    split
    · exact List.Perm.refl _
    · exact (ih.cons b).trans (List.Perm.swap a b bs)

theorem stableSort_perm (le : α → α → Bool) (l : List α) :
    (stableSort le l).Perm l := by
  induction l with
  | nil => exact List.Perm.refl _
  | cons a as_ ih => exact (stableInsert_perm le a _).trans (ih.cons a)

theorem mem_stableSort (le : α → α → Bool) (l : List α) (x : α) :
    x ∈ stableSort le l ↔ x ∈ l :=
  (stableSort_perm le l).mem_iff

theorem length_stableSort (le : α → α → Bool) (l : List α) :
    (stableSort le l).length = l.length :=
  (stableSort_perm le l).length_eq

theorem stableInsert_pairwise (le : α → α → Bool)
    (htr : ∀ a b c, le a b = true → le b c = true → le a c = true)
    (hto : ∀ a b, le a b || le b a) (a : α) (l : List α)
    (hl : l.Pairwise (fun x y => le x y = true)) :
    (stableInsert le a l).Pairwise (fun x y => le x y = true) := by
  induction l with
  | nil => simp [stableInsert]
  | cons b bs ih =>
    rw [List.pairwise_cons] at hl
    obtain ⟨hb, hbs⟩ := hl
    simp only [stableInsert]
    split
    · next hab =>
      refine List.Pairwise.cons ?_ (List.Pairwise.cons hb hbs)
      intro c hc
      rcases List.mem_cons.1 hc with rfl | hc
      · exact hab
      · exact htr _ _ _ hab (hb c hc)
    · next hab =>
      have hba : le b a = true := by
        have := hto a b
        simp only [Bool.or_eq_true] at this
        rcases this with h | h
        · exact absurd h hab
        · exact h
      refine List.Pairwise.cons ?_ (ih hbs)
      intro c hc
      have hc2 : c ∈ a :: bs := (stableInsert_perm le a bs).mem_iff.1 hc
      rcases List.mem_cons.1 hc2 with rfl | hc2
      · exact hba
      · exact hb c hc2

theorem stableSort_pairwise (le : α → α → Bool)
    (htr : ∀ a b c, le a b = true → le b c = true → le a c = true)
    (hto : ∀ a b, le a b || le b a) (l : List α) :
    (stableSort le l).Pairwise (fun x y => le x y = true) := by
  induction l with
  | nil => exact List.Pairwise.nil
  | cons a as_ ih => exact stableInsert_pairwise le htr hto a _ ih

theorem stableSort_head_le (le : α → α → Bool)
    (htr : ∀ a b c, le a b = true → le b c = true → le a c = true)
    (hto : ∀ a b, le a b || le b a) (l : List α) (v : α)
    (hv : (stableSort le l).head? = some v) :
    ∀ x ∈ l, le v x = true := by
  intro x hx
  have hx2 : x ∈ stableSort le l := (mem_stableSort le l x).2 hx
  rcases hs : stableSort le l with _ | ⟨h0, rest⟩
  · rw [hs] at hx2; exact absurd hx2 (List.not_mem_nil x)
  · rw [hs] at hv
    simp only [List.head?_cons, Option.some.injEq] at hv
    subst hv
    have hp := stableSort_pairwise le htr hto l
    rw [hs] at hx2 hp
    rcases List.mem_cons.1 hx2 with rfl | hx2
    · have := hto x x
      simp only [Bool.or_self] at this
      exact this
    · exact (List.pairwise_cons.1 hp).1 x hx2

theorem stableSort_head_mem (le : α → α → Bool) (l : List α) (v : α)
    (hv : (stableSort le l).head? = some v) : v ∈ l := by
  have : v ∈ stableSort le l := by
    rcases hs : stableSort le l with _ | ⟨h0, rest⟩
    · rw [hs] at hv; exact absurd hv (by simp)
    · rw [hs] at hv
      simp only [List.head?_cons, Option.some.injEq] at hv
      subst hv
      exact List.mem_cons_self _ _
  exact (mem_stableSort le l v).1 this

/-! ### Lemmas about `revise` -/

theorem revise_of_overlap_none {cw : Crossword} {doms : Domains} {x y : Slot}
    (h : cw.overlaps x y = none) : revise cw doms x y = (false, doms) := by
  simp only [revise, h]

theorem revise_of_all_support {cw : Crossword} {doms : Domains} {x y : Slot} {i j : Nat}
    (hov : cw.overlaps x y = some (i, j))
    (hall : (doms x).all (fun w => hasSupport doms y i j w) = true) :
    revise cw doms x y = (false, doms) := by
  simp only [revise, hov, hall, if_true]

theorem revise_of_not_all_support {cw : Crossword} {doms : Domains} {x y : Slot} {i j : Nat}
    (hov : cw.overlaps x y = some (i, j))
    (hall : ¬((doms x).all (fun w => hasSupport doms y i j w) = true)) :
    revise cw doms x y =
      (true, fun v =>
        if v = x then (doms x).filter (fun w => hasSupport doms y i j w)
        else doms v) := by
  simp only [revise, hov, if_neg hall]

theorem revise_snd_of_fst_false {cw : Crossword} {doms : Domains} {x y : Slot}
    (h : (revise cw doms x y).1 = false) : (revise cw doms x y).2 = doms := by
  rcases hov : cw.overlaps x y with _ | ⟨i, j⟩
  · rw [revise_of_overlap_none hov]
  · by_cases hall : (doms x).all (fun w => hasSupport doms y i j w) = true
    · rw [revise_of_all_support hov hall]
    · rw [revise_of_not_all_support hov hall] at h
      simp at h

theorem revise_snd_apply_ne {cw : Crossword} {doms : Domains} {x y v : Slot}
    (h : v ≠ x) : (revise cw doms x y).2 v = doms v := by
  rcases hov : cw.overlaps x y with _ | ⟨i, j⟩
  · rw [revise_of_overlap_none hov]
  · by_cases hall : (doms x).all (fun w => hasSupport doms y i j w) = true
    · rw [revise_of_all_support hov hall]
    · rw [revise_of_not_all_support hov hall]
      simp only [if_neg h]

theorem revise_snd_sublist (cw : Crossword) (doms : Domains) (x y v : Slot) :
    ((revise cw doms x y).2 v).Sublist (doms v) := by
  rcases hov : cw.overlaps x y with _ | ⟨i, j⟩
  · rw [revise_of_overlap_none hov]
  · by_cases hall : (doms x).all (fun w => hasSupport doms y i j w) = true
    · rw [revise_of_all_support hov hall]
    · rw [revise_of_not_all_support hov hall]
      by_cases hv : v = x
      · subst hv
        simp only [if_pos rfl]
        exact List.filter_sublist _
      · simp only [if_neg hv]
        exact List.Sublist.refl _

theorem revise_mem_snd_self {cw : Crossword} {doms : Domains} {x y : Slot} {i j : Nat}
    (hov : cw.overlaps x y = some (i, j)) (w : Word) :
    w ∈ (revise cw doms x y).2 x ↔ w ∈ doms x ∧ hasSupport doms y i j w = true := by
  by_cases hall : (doms x).all (fun w => hasSupport doms y i j w) = true
  · rw [revise_of_all_support hov hall]
    rw [List.all_eq_true] at hall
    exact ⟨fun hw => ⟨hw, hall w hw⟩, fun hw => hw.1⟩
  · rw [revise_of_not_all_support hov hall]
    simp [List.mem_filter]

theorem revise_fst_true_iff {cw : Crossword} {doms : Domains} {x y : Slot} {i j : Nat}
    (hov : cw.overlaps x y = some (i, j)) :
    (revise cw doms x y).1 = true ↔ ∃ w ∈ doms x, hasSupport doms y i j w = false := by
  by_cases hall : (doms x).all (fun w => hasSupport doms y i j w) = true
  · rw [revise_of_all_support hov hall]
    simp only [Bool.false_eq_true, false_iff]
    rw [List.all_eq_true] at hall
    rintro ⟨w, hw, hws⟩
    rw [hall w hw] at hws
    exact Bool.true_eq_false.mp hws
  · rw [revise_of_not_all_support hov hall]
    simp only [true_iff]
    rw [List.all_eq_true] at hall
    push_neg at hall
    obtain ⟨w, hw, hws⟩ := hall
    exact ⟨w, hw, Bool.not_eq_true _ ▸ Bool.eq_false_iff.2 hws⟩

theorem arcOK_revise_eq {cw : Crossword} {doms : Domains} {x y : Slot}
    (h : arcOK cw doms x y = true) : revise cw doms x y = (false, doms) := by
  unfold arcOK at h
  rcases hov : cw.overlaps x y with _ | ⟨i, j⟩ <;> rw [hov] at h
  · exact revise_of_overlap_none hov
  · exact revise_of_all_support hov h

theorem revise_arcOK_of_fst_false {cw : Crossword} {doms : Domains} {x y : Slot}
    (h : (revise cw doms x y).1 = false) : arcOK cw doms x y = true := by
  unfold arcOK
  rcases hov : cw.overlaps x y with _ | ⟨i, j⟩
  · rfl
  · by_cases hall : (doms x).all (fun w => hasSupport doms y i j w) = true
    · exact hall
    · rw [revise_of_not_all_support hov hall] at h
      simp at h

/-! ### Neighbor and queue bookkeeping -/

theorem mem_neighbors_iff {cw : Crossword} {x y : Slot} :
    y ∈ cw.neighbors x ↔ y ∈ cw.vars ∧ y ≠ x ∧ (cw.overlaps x y).isSome := by
  unfold Crossword.neighbors
  rw [List.mem_filter]
  simp only [Bool.and_eq_true, decide_eq_true_eq]

theorem mem_vars_of_mem_neighbors {cw : Crossword} {x y : Slot}
    (h : y ∈ cw.neighbors x) : y ∈ cw.vars :=
  (mem_neighbors_iff.1 h).1

theorem mem_enqueueArcs_iff {cw : Crossword} {x y : Slot} {p : Slot × Slot} :
    p ∈ enqueueArcs cw x y ↔ p.1 ∈ cw.neighbors x ∧ p.1 ≠ y ∧ p.2 = x := by
  unfold enqueueArcs
  rw [List.mem_map]
  constructor
  · rintro ⟨z, hz, rfl⟩
    rw [List.mem_filter] at hz
    exact ⟨hz.1, by simpa using hz.2, rfl⟩
  · rintro ⟨h1, h2, h3⟩
    refine ⟨p.1, List.mem_filter.2 ⟨h1, by simpa using h2⟩, ?_⟩
    rw [← h3]

theorem badCount_append (cw : Crossword) (q1 q2 : List (Slot × Slot)) :
    badCount cw (q1 ++ q2) = badCount cw q1 + badCount cw q2 := by
  unfold badCount
  rw [List.filter_append, List.length_append]

theorem badCount_cons_le (cw : Crossword) (p : Slot × Slot) (rest : List (Slot × Slot)) :
    badCount cw rest ≤ badCount cw (p :: rest) := by
  unfold badCount
  rw [List.filter_cons]
  split
  · simp
  · exact Nat.le_refl _

theorem badCount_cons_bad (cw : Crossword) {p : Slot × Slot} (rest : List (Slot × Slot))
    (h : p.1 ∉ cw.vars) : badCount cw (p :: rest) = badCount cw rest + 1 := by
  unfold badCount
  rw [List.filter_cons, if_pos (by simpa using h)]
  simp [Nat.add_comm]

theorem badCount_enqueue_zero (cw : Crossword) (x y : Slot) :
    badCount cw (enqueueArcs cw x y) = 0 := by
  unfold badCount
  rw [List.length_eq_zero, List.filter_eq_nil_iff]
  intro p hp
  have h1 := (mem_enqueueArcs_iff.1 hp).1
  have : p.1 ∈ cw.vars := mem_vars_of_mem_neighbors h1
  simpa using this

theorem enqueueArcs_length_le (cw : Crossword) (x y : Slot) :
    (enqueueArcs cw x y).length ≤ cw.vars.length := by
  unfold enqueueArcs
  rw [List.length_map]
  calc ((cw.neighbors x).filter (fun z => decide (z ≠ y))).length
      ≤ (cw.neighbors x).length := List.length_filter_le _ _
    _ ≤ cw.vars.length := List.Sublist.length_le (List.filter_sublist _)

theorem sum_map_lt {l : List α} {f g : α → Nat} (hle : ∀ a ∈ l, f a ≤ g a)
    (x : α) (hx : x ∈ l) (hlt : f x < g x) : (l.map f).sum < (l.map g).sum := by
  induction l with
  | nil => exact absurd hx (List.not_mem_nil x)
  | cons b bs ih =>
    simp only [List.map_cons, List.sum_cons]
    rcases List.mem_cons.1 hx with rfl | hx2
    · have h2 : ((bs.map f).sum ≤ (bs.map g).sum) :=
        List.sum_le_sum (fun a ha => hle a (List.mem_cons_of_mem _ ha))
      omega
    · have h1 : f b ≤ g b := hle b (List.mem_cons_self _ _)
      have h2 := ih (fun a ha => hle a (List.mem_cons_of_mem _ ha)) hx2
      omega

theorem domSize_lt_of_revise_true {cw : Crossword} {doms : Domains} {x y : Slot}
    (hx : x ∈ cw.vars) (h : (revise cw doms x y).1 = true) :
    domSize cw (revise cw doms x y).2 < domSize cw doms := by
  unfold domSize
  refine sum_map_lt (fun v _ => List.Sublist.length_le (revise_snd_sublist cw doms x y v))
    x hx ?_
  rcases hov : cw.overlaps x y with _ | ⟨i, j⟩
  · rw [revise_of_overlap_none hov] at h
    simp at h
  · obtain ⟨w, hw, hws⟩ := (revise_fst_true_iff hov).1 h
    by_cases hall : (doms x).all (fun w => hasSupport doms y i j w) = true
    · rw [List.all_eq_true] at hall
      rw [hall w hw] at hws
      exact absurd hws (by simp)
    · have h2 : (revise cw doms x y).2 x
          = (doms x).filter (fun w => hasSupport doms y i j w) := by
        rw [revise_of_not_all_support hov hall]
        simp
      rw [h2, List.length_filter_lt_length_iff_exists]
      exact ⟨w, hw, by simp [hws]⟩

theorem domSize_eq_of_revise_not_mem {cw : Crossword} {doms : Domains} {x y : Slot}
    (hx : x ∉ cw.vars) :
    domSize cw (revise cw doms x y).2 = domSize cw doms := by
  unfold domSize
  congr 1
  refine List.map_congr_left (fun v hv => ?_)
  have : v ≠ x := fun hvx => hx (hvx ▸ hv)
  rw [revise_snd_apply_ne this]

/-! ### The AC-3 termination measure decreases at every loop step -/

theorem ac3Measure_lt_of_revise_true {cw : Crossword} {doms : Domains} {x y : Slot}
    (h : (revise cw doms x y).1 = true) (rest : List (Slot × Slot)) :
    ac3Measure cw (revise cw doms x y).2 (rest ++ enqueueArcs cw x y) <
    ac3Measure cw doms ((x, y) :: rest) := by
  unfold ac3Measure
  rw [List.length_append, badCount_append, badCount_enqueue_zero, List.length_cons]
  simp only [Nat.add_zero]
  have hE : (enqueueArcs cw x y).length ≤ cw.vars.length := enqueueArcs_length_le cw x y
  by_cases hx : x ∈ cw.vars
  · have hS : domSize cw (revise cw doms x y).2 + 1 ≤ domSize cw doms :=
      domSize_lt_of_revise_true hx h
    have hB : badCount cw rest ≤ badCount cw ((x, y) :: rest) := badCount_cons_le cw _ rest
    have key : (cw.vars.length + 1) *
        (domSize cw (revise cw doms x y).2 + badCount cw rest) + (cw.vars.length + 1) ≤
        (cw.vars.length + 1) * (domSize cw doms + badCount cw ((x, y) :: rest)) := by
      calc (cw.vars.length + 1) *
          (domSize cw (revise cw doms x y).2 + badCount cw rest) + (cw.vars.length + 1)
          = (cw.vars.length + 1) *
            (domSize cw (revise cw doms x y).2 + badCount cw rest + 1) := by ring
        _ ≤ (cw.vars.length + 1) * (domSize cw doms + badCount cw ((x, y) :: rest)) :=
            Nat.mul_le_mul_left _ (by omega)
    omega
  · have hS : domSize cw (revise cw doms x y).2 = domSize cw doms :=
      domSize_eq_of_revise_not_mem hx
    have hB : badCount cw ((x, y) :: rest) = badCount cw rest + 1 :=
      badCount_cons_bad cw rest hx
    rw [hS, hB]
    have key : (cw.vars.length + 1) * (domSize cw doms + (badCount cw rest + 1)) =
        (cw.vars.length + 1) * (domSize cw doms + badCount cw rest) +
        (cw.vars.length + 1) := by ring
    omega

theorem ac3Measure_lt_of_revise_false (cw : Crossword) (doms : Domains) (x y : Slot)
    (rest : List (Slot × Slot)) :
    ac3Measure cw doms rest < ac3Measure cw doms ((x, y) :: rest) := by
  unfold ac3Measure
  rw [List.length_cons]
  have hB : badCount cw rest ≤ badCount cw ((x, y) :: rest) := badCount_cons_le cw _ rest
  have hmul : (cw.vars.length + 1) * (domSize cw doms + badCount cw rest) ≤
      (cw.vars.length + 1) * (domSize cw doms + badCount cw ((x, y) :: rest)) :=
    Nat.mul_le_mul_left _ (by omega)
  omega

/-! ### Fuel irrelevance and unfolding equations for the AC-3 loop -/

theorem ac3Fuel_congr (cw : Crossword) :
    ∀ (m : Nat) {n : Nat} (doms : Domains) (queue : List (Slot × Slot)),
      ac3Measure cw doms queue < m → ac3Measure cw doms queue < n →
      ac3Fuel cw m doms queue = ac3Fuel cw n doms queue := by
  intro m
  induction m with
  | zero => intro n doms queue hm; omega
  | succ m ih =>
    intro n doms queue hm hn
    rcases n with _ | n
    · omega
    rcases queue with _ | ⟨⟨x, y⟩, rest⟩
    · rfl
    show (if (revise cw doms x y).1 = true then
        ac3Fuel cw m (revise cw doms x y).2 (rest ++ enqueueArcs cw x y)
      else ac3Fuel cw m (revise cw doms x y).2 rest) =
      (if (revise cw doms x y).1 = true then
        ac3Fuel cw n (revise cw doms x y).2 (rest ++ enqueueArcs cw x y)
      else ac3Fuel cw n (revise cw doms x y).2 rest)
    by_cases hr : (revise cw doms x y).1 = true
    · rw [if_pos hr, if_pos hr]
      have hlt := ac3Measure_lt_of_revise_true hr rest
      exact ih _ _ (by omega) (by omega)
    · rw [if_neg hr, if_neg hr]
      rw [revise_snd_of_fst_false (Bool.not_eq_true _ ▸ hr)]
      have hlt := ac3Measure_lt_of_revise_false cw doms x y rest
      exact ih _ _ (by omega) (by omega)

theorem ac3Run_nil (cw : Crossword) (doms : Domains) : ac3Run cw doms [] = doms := rfl

theorem ac3Run_cons (cw : Crossword) (doms : Domains) (x y : Slot)
    (rest : List (Slot × Slot)) :
    ac3Run cw doms ((x, y) :: rest) =
      if (revise cw doms x y).1 = true then
        ac3Run cw (revise cw doms x y).2 (rest ++ enqueueArcs cw x y)
      else ac3Run cw doms rest := by
  show (if (revise cw doms x y).1 = true then
      ac3Fuel cw (ac3Measure cw doms ((x, y) :: rest)) (revise cw doms x y).2
        (rest ++ enqueueArcs cw x y)
    else ac3Fuel cw (ac3Measure cw doms ((x, y) :: rest)) (revise cw doms x y).2 rest) = _
  by_cases hr : (revise cw doms x y).1 = true
  · rw [if_pos hr, if_pos hr]
    have hlt := ac3Measure_lt_of_revise_true hr rest
    exact ac3Fuel_congr cw _ _ _ (by omega) (by omega)
  · rw [if_neg hr, if_neg hr]
    rw [revise_snd_of_fst_false (Bool.not_eq_true _ ▸ hr)]
    have hlt := ac3Measure_lt_of_revise_false cw doms x y rest
    exact ac3Fuel_congr cw _ _ _ (by omega) (by omega)

/-! ### Pointwise monotonicity of the AC-3 loop: domains only shrink -/

theorem ac3Fuel_sublist (cw : Crossword) :
    ∀ (m : Nat) (doms : Domains) (queue : List (Slot × Slot)) (v : Slot),
      ((ac3Fuel cw m doms queue) v).Sublist (doms v) := by
  intro m
  induction m with
  | zero => intro doms queue v; exact List.Sublist.refl _
  | succ m ih =>
    intro doms queue v
    rcases queue with _ | ⟨⟨x, y⟩, rest⟩
    · exact List.Sublist.refl _
    show ((if (revise cw doms x y).1 = true then
        ac3Fuel cw m (revise cw doms x y).2 (rest ++ enqueueArcs cw x y)
      else ac3Fuel cw m (revise cw doms x y).2 rest) v).Sublist (doms v)
    by_cases hr : (revise cw doms x y).1 = true
    · rw [if_pos hr]
      exact (ih _ _ v).trans (revise_snd_sublist cw doms x y v)
    · rw [if_neg hr]
      exact (ih _ _ v).trans (revise_snd_sublist cw doms x y v)

theorem ac3Run_sublist (cw : Crossword) (doms : Domains) (queue : List (Slot × Slot))
    (v : Slot) : ((ac3Run cw doms queue) v).Sublist (doms v) :=
  ac3Fuel_sublist cw _ doms queue v

theorem ac3_snd_sublist (cw : Crossword) (doms : Domains)
    (arcs : Option (List (Slot × Slot))) (v : Slot) :
    ((ac3 cw doms arcs).2 v).Sublist (doms v) := by
  unfold ac3
  rcases arcs with _ | a
  · exact ac3Run_sublist cw doms _ v
  · exact ac3Run_sublist cw doms _ v

/-! ### The AC-3 loop is the identity on an arc-consistent store -/

theorem ac3Fuel_eq_self (cw : Crossword) :
    ∀ (m : Nat) (doms : Domains) (queue : List (Slot × Slot)),
      (∀ p ∈ queue, arcOK cw doms p.1 p.2 = true) →
      ac3Fuel cw m doms queue = doms := by
  intro m
  induction m with
  | zero => intro doms queue _; rfl
  | succ m ih =>
    intro doms queue hq
    rcases queue with _ | ⟨⟨x, y⟩, rest⟩
    · rfl
    have hxy : arcOK cw doms x y = true := hq (x, y) (List.mem_cons_self _ _)
    show (if (revise cw doms x y).1 = true then
        ac3Fuel cw m (revise cw doms x y).2 (rest ++ enqueueArcs cw x y)
      else ac3Fuel cw m (revise cw doms x y).2 rest) = doms
    rw [arcOK_revise_eq hxy]
    simp only [Bool.false_eq_true, if_false]
    exact ih doms rest (fun p hp => hq p (List.mem_cons_of_mem _ hp))

theorem mem_allArcs_iff {cw : Crossword} {p : Slot × Slot} :
    p ∈ allArcs cw ↔ p.1 ∈ cw.vars ∧ p.2 ∈ cw.neighbors p.1 := by
  unfold allArcs
  rw [List.mem_flatMap]
  constructor
  · rintro ⟨x, hx, hp⟩
    rw [List.mem_map] at hp
    obtain ⟨y, hy, rfl⟩ := hp
    exact ⟨hx, hy⟩
  · rintro ⟨h1, h2⟩
    exact ⟨p.1, h1, List.mem_map.2 ⟨p.2, h2, rfl⟩⟩

theorem arcOK_of_arcConsistentAll {cw : Crossword} {doms : Domains}
    (h : arcConsistentAll cw doms = true) {x y : Slot} (hx : x ∈ cw.vars)
    (hy : y ∈ cw.neighbors x) : arcOK cw doms x y = true := by
  unfold arcConsistentAll at h
  rw [List.all_eq_true] at h
  have := h x hx
  rw [List.all_eq_true] at this
  exact this y hy

theorem ac3_of_arcConsistentAll {cw : Crossword} {doms : Domains}
    (h : arcConsistentAll cw doms = true) :
    ac3 cw doms none = (cw.vars.all (fun v => !(doms v).isEmpty), doms) := by
  unfold ac3
  have hid : ac3Run cw doms (allArcs cw) = doms := by
    unfold ac3Run
    refine ac3Fuel_eq_self cw _ doms _ (fun p hp => ?_)
    obtain ⟨h1, h2⟩ := mem_allArcs_iff.1 hp
    exact arcOK_of_arcConsistentAll h h1 h2
  show (cw.vars.all fun v => !((ac3Run cw doms (allArcs cw)) v).isEmpty,
      ac3Run cw doms (allArcs cw)) = _
  rw [hid]

/-! ### How a single revision affects arc consistency -/

theorem revise_arcOK_self {cw : Crossword} {doms : Domains} {x y : Slot}
    (hyx : y ≠ x) : arcOK cw (revise cw doms x y).2 x y = true := by
  unfold arcOK
  rcases hov : cw.overlaps x y with _ | ⟨i, j⟩
  · rfl
  · rw [List.all_eq_true]
    intro w hw
    have hmem := (revise_mem_snd_self hov w).1 hw
    have hy : (revise cw doms x y).2 y = doms y := revise_snd_apply_ne hyx
    unfold hasSupport at hmem ⊢
    rw [hy]
    exact hmem.2

theorem revise_preserves_arcOK_ne {cw : Crossword} {doms : Domains} {x y a b : Slot}
    (hbx : b ≠ x) (h : arcOK cw doms a b = true) :
    arcOK cw (revise cw doms x y).2 a b = true := by
  unfold arcOK at h ⊢
  rcases hov : cw.overlaps a b with _ | ⟨i, j⟩
  · rfl
  · rw [hov] at h
    have h2 : (doms a).all (fun w => hasSupport doms b i j w) = true := h
    show ((revise cw doms x y).2 a).all
      (fun w => hasSupport (revise cw doms x y).2 b i j w) = true
    rw [List.all_eq_true] at h2 ⊢
    intro w hw
    have hwa : w ∈ doms a :=
      (revise_snd_sublist cw doms x y a).subset hw
    have hb : (revise cw doms x y).2 b = doms b := revise_snd_apply_ne hbx
    unfold hasSupport
    rw [hb]
    exact h2 w hwa

theorem revise_preserves_arcOK_rev {cw : Crossword} {doms : Domains} {x y : Slot}
    (hwf : cw.Wf) (hx : x ∈ cw.vars) (hy : y ∈ cw.vars) (hyx : y ≠ x)
    (h : arcOK cw doms y x = true) :
    arcOK cw (revise cw doms x y).2 y x = true := by
  rcases hov : cw.overlaps x y with _ | ⟨i, j⟩
  · rw [revise_of_overlap_none hov]
    exact h
  · have hrev : cw.overlaps y x = some (j, i) := by
      rw [hwf.2 x hx y hy, hov]
      rfl
    unfold arcOK at h ⊢
    rw [hrev] at h ⊢
    rw [List.all_eq_true] at h ⊢
    intro w hw
    have hwy : w ∈ doms y := by
      rw [revise_snd_apply_ne hyx] at hw
      exact hw
    have hsup := h w hwy
    unfold hasSupport at hsup ⊢
    rw [List.any_eq_true] at hsup ⊢
    obtain ⟨v, hv, hagree⟩ := hsup
    rw [decide_eq_true_eq] at hagree
    refine ⟨v, ?_, by rw [decide_eq_true_eq]; exact hagree⟩
    rw [revise_mem_snd_self hov]
    refine ⟨hv, ?_⟩
    unfold hasSupport
    rw [List.any_eq_true]
    exact ⟨w, hwy, by rw [decide_eq_true_eq]; exact hagree.symm⟩

theorem neighbors_symm {cw : Crossword} (hwf : cw.Wf) {a x : Slot}
    (ha : a ∈ cw.vars) (hx : x ∈ cw.vars) (h : x ∈ cw.neighbors a) :
    a ∈ cw.neighbors x := by
  obtain ⟨_, hne, hov⟩ := mem_neighbors_iff.1 h
  refine mem_neighbors_iff.2 ⟨ha, fun hax => hne (hax ▸ rfl), ?_⟩
  rw [hwf.2 a ha x hx]
  rcases ho : cw.overlaps a x with _ | p
  · rw [ho] at hov
    exact absurd hov (by simp)
  · rfl

/-! ### The AC-3 invariant: when the queue is exhausted every covered arc
is consistent -/

theorem ac3Fuel_arcOK_all {cw : Crossword} (hwf : cw.Wf) :
    ∀ (m : Nat) (doms : Domains) (queue : List (Slot × Slot)),
      ac3Measure cw doms queue < m →
      (∀ p ∈ queue, p.1 ∈ cw.vars ∧ p.2 ∈ cw.vars ∧ p.1 ≠ p.2) →
      (∀ x ∈ cw.vars, ∀ y ∈ cw.neighbors x,
        (x, y) ∈ queue ∨ arcOK cw doms x y = true) →
      ∀ x ∈ cw.vars, ∀ y ∈ cw.neighbors x,
        arcOK cw (ac3Fuel cw m doms queue) x y = true := by
  intro m
  induction m with
  | zero => intro doms queue hm; omega
  | succ m ih =>
    intro doms queue hm hq hcov
    rcases queue with _ | ⟨⟨x, y⟩, rest⟩
    · intro a ha b hb
      rcases hcov a ha b hb with habs | hok
      · exact absurd habs (List.not_mem_nil _)
      · exact hok
    obtain ⟨hx, hy, hxy⟩ := hq (x, y) (List.mem_cons_self _ _)
    show ∀ a ∈ cw.vars, ∀ b ∈ cw.neighbors a,
      arcOK cw (if (revise cw doms x y).1 = true then
        ac3Fuel cw m (revise cw doms x y).2 (rest ++ enqueueArcs cw x y)
      else ac3Fuel cw m (revise cw doms x y).2 rest) a b = true
    by_cases hr : (revise cw doms x y).1 = true
    · rw [if_pos hr]
      have hlt := ac3Measure_lt_of_revise_true hr rest
      refine ih _ _ (by omega) ?_ ?_
      · intro p hp
        rcases List.mem_append.1 hp with hp | hp
        · exact hq p (List.mem_cons_of_mem _ hp)
        · obtain ⟨h1, h2, h3⟩ := mem_enqueueArcs_iff.1 hp
          obtain ⟨hz1, hz2, _⟩ := mem_neighbors_iff.1 h1
          exact ⟨hz1, h3 ▸ hx, h3 ▸ hz2⟩
      · intro a ha b hb
        rcases hcov a ha b hb with hmem | hok
        · rcases List.mem_cons.1 hmem with heq | hmem
          · have ha1 : a = x := congrArg Prod.fst heq
            have hb1 : b = y := congrArg Prod.snd heq
            subst ha1; subst hb1
            exact Or.inr (revise_arcOK_self (fun hexy => hxy hexy.symm))
          · exact Or.inl (List.mem_append_left _ hmem)
        · by_cases hbx : b = x
          · subst hbx
            by_cases hay : a = y
            · subst hay
              exact Or.inr (revise_preserves_arcOK_rev hwf hx hy
                (fun hexy => hxy hexy.symm) hok)
            · refine Or.inl (List.mem_append_right _ ?_)
              rw [mem_enqueueArcs_iff]
              exact ⟨neighbors_symm hwf ha hx hb, hay, rfl⟩
          · exact Or.inr (revise_preserves_arcOK_ne hbx hok)
    · rw [if_neg hr]
      rw [revise_snd_of_fst_false (Bool.not_eq_true _ ▸ hr)]
      have hlt := ac3Measure_lt_of_revise_false cw doms x y rest
      refine ih _ _ (by omega) (fun p hp => hq p (List.mem_cons_of_mem _ hp)) ?_
      intro a ha b hb
      rcases hcov a ha b hb with hmem | hok
      · rcases List.mem_cons.1 hmem with heq | hmem
        · have ha1 : a = x := congrArg Prod.fst heq
          have hb1 : b = y := congrArg Prod.snd heq
          subst ha1; subst hb1
          exact Or.inr (revise_arcOK_of_fst_false (Bool.not_eq_true _ ▸ hr))
        · exact Or.inl hmem
      · exact Or.inr hok

theorem ac3Run_arcConsistentAll {cw : Crossword} (hwf : cw.Wf) (doms : Domains) :
    arcConsistentAll cw (ac3Run cw doms (allArcs cw)) = true := by
  unfold arcConsistentAll
  rw [List.all_eq_true]
  intro x hx
  rw [List.all_eq_true]
  intro y hy
  refine ac3Fuel_arcOK_all hwf _ doms (allArcs cw) (Nat.lt_succ_self _) ?_ ?_ x hx y hy
  · intro p hp
    obtain ⟨h1, h2⟩ := mem_allArcs_iff.1 hp
    obtain ⟨h3, h4, _⟩ := mem_neighbors_iff.1 h2
    exact ⟨h1, h3, fun he => h4 he.symm⟩
  · intro a ha b hb
    exact Or.inl (mem_allArcs_iff.2 ⟨ha, hb⟩)

/-! ### Values of a satisfying assignment are never pruned -/

theorem ac3Fuel_mem_preserved {cw : Crossword} (σ : Slot → Word)
    (hov : ∀ x ∈ cw.vars, ∀ y ∈ cw.vars, ∀ i j, cw.overlaps x y = some (i, j) →
      (σ x).get? i = (σ y).get? j) :
    ∀ (m : Nat) (doms : Domains) (queue : List (Slot × Slot)),
      (∀ p ∈ queue, p.1 ∈ cw.vars ∧ p.2 ∈ cw.vars) →
      (∀ v ∈ cw.vars, σ v ∈ doms v) →
      ∀ v ∈ cw.vars, σ v ∈ ac3Fuel cw m doms queue v := by
  intro m
  induction m with
  | zero => intro doms queue _ hσ; exact hσ
  | succ m ih =>
    intro doms queue hq hσ
    rcases queue with _ | ⟨⟨x, y⟩, rest⟩
    · exact hσ
    obtain ⟨hx, hy⟩ := hq (x, y) (List.mem_cons_self _ _)
    show ∀ v ∈ cw.vars, σ v ∈ (if (revise cw doms x y).1 = true then
        ac3Fuel cw m (revise cw doms x y).2 (rest ++ enqueueArcs cw x y)
      else ac3Fuel cw m (revise cw doms x y).2 rest) v
    have hσ2 : ∀ v ∈ cw.vars, σ v ∈ (revise cw doms x y).2 v := by
      intro v hv
      by_cases hvx : v = x
      · subst hvx
        rcases hov2 : cw.overlaps v y with _ | ⟨i, j⟩
        · rw [revise_of_overlap_none hov2]
          exact hσ v hv
        · rw [revise_mem_snd_self hov2]
          refine ⟨hσ v hv, ?_⟩
          unfold hasSupport
          rw [List.any_eq_true]
          exact ⟨σ y, hσ y hy, by
            rw [decide_eq_true_eq]
            exact hov v hv y hy i j hov2⟩
      · rw [revise_snd_apply_ne hvx]
        exact hσ v hv
    by_cases hr : (revise cw doms x y).1 = true
    · rw [if_pos hr]
      refine ih _ _ ?_ hσ2
      intro p hp
      rcases List.mem_append.1 hp with hp | hp
      · exact hq p (List.mem_cons_of_mem _ hp)
      · obtain ⟨h1, _, h3⟩ := mem_enqueueArcs_iff.1 hp
        exact ⟨mem_vars_of_mem_neighbors h1, h3 ▸ hx⟩
    · rw [if_neg hr]
      exact ih _ _ (fun p hp => hq p (List.mem_cons_of_mem _ hp)) hσ2

theorem ac3Run_mem_preserved {cw : Crossword} (σ : Slot → Word)
    (hov : ∀ x ∈ cw.vars, ∀ y ∈ cw.vars, ∀ i j, cw.overlaps x y = some (i, j) →
      (σ x).get? i = (σ y).get? j)
    (doms : Domains) (hσ : ∀ v ∈ cw.vars, σ v ∈ doms v) :
    ∀ v ∈ cw.vars, σ v ∈ ac3Run cw doms (allArcs cw) v := by
  refine ac3Fuel_mem_preserved σ hov _ doms (allArcs cw) ?_ hσ
  intro p hp
  obtain ⟨h1, h2⟩ := mem_allArcs_iff.1 hp
  exact ⟨h1, mem_vars_of_mem_neighbors h2⟩

/-! ### The variable selection heuristic -/

theorem selectLe_trans (cw : Crossword) (doms : Domains) :
    ∀ a b c, selectLe cw doms a b = true → selectLe cw doms b c = true →
      selectLe cw doms a c = true := by
  intro a b c hab hbc
  unfold selectLe at *
  simp only [Bool.or_eq_true, Bool.and_eq_true, decide_eq_true_eq] at *
  rcases hab with h1 | ⟨h1, h2⟩ <;> rcases hbc with h3 | ⟨h3, h4⟩
  · exact Or.inl (h1.trans h3)
  · exact Or.inl (h3 ▸ h1)
  · exact Or.inl (h1 ▸ h3)
  · exact Or.inr ⟨h1.trans h3, h4.trans h2⟩

theorem selectLe_total (cw : Crossword) (doms : Domains) :
    ∀ a b, selectLe cw doms a b || selectLe cw doms b a := by
  intro a b
  unfold selectLe
  simp only [Bool.or_eq_true, Bool.and_eq_true, decide_eq_true_eq]
  omega

theorem select_some_spec {cw : Crossword} {doms : Domains} {a : Assignment} {var : Slot}
    (h : select_unassigned_variable cw doms a = some var) :
    var ∈ cw.vars ∧ var ∉ assignedVars a ∧
    (∀ u ∈ cw.vars, u ∉ assignedVars a → (doms var).length ≤ (doms u).length) ∧
    (∀ u ∈ cw.vars, u ∉ assignedVars a → (doms u).length = (doms var).length →
      (cw.neighbors u).length ≤ (cw.neighbors var).length) := by
  unfold select_unassigned_variable at h
  have hmem := stableSort_head_mem _ _ _ h
  rw [List.mem_filter] at hmem
  have hle := stableSort_head_le _ (selectLe_trans cw doms) (selectLe_total cw doms) _ _ h
  have hv1 : var ∈ cw.vars := hmem.1
  have hv2 : var ∉ assignedVars a := by
    have := hmem.2
    simp only [Bool.not_eq_eq_eq_not, Bool.not_true, decide_eq_false_iff_not] at this
    exact this
  refine ⟨hv1, hv2, ?_, ?_⟩
  · intro u hu1 hu2
    have hle2 := hle u (List.mem_filter.2 ⟨hu1, by simpa using hu2⟩)
    unfold selectLe at hle2
    simp only [Bool.or_eq_true, Bool.and_eq_true, decide_eq_true_eq] at hle2
    omega
  · intro u hu1 hu2 heq
    have hle2 := hle u (List.mem_filter.2 ⟨hu1, by simpa using hu2⟩)
    unfold selectLe at hle2
    simp only [Bool.or_eq_true, Bool.and_eq_true, decide_eq_true_eq] at hle2
    omega

theorem select_eq_some {cw : Crossword} (doms : Domains) {a : Assignment}
    (h : ∃ v ∈ cw.vars, v ∉ assignedVars a) :
    ∃ var, select_unassigned_variable cw doms a = some var := by
  unfold select_unassigned_variable
  obtain ⟨v, hv1, hv2⟩ := h
  have hmem : v ∈ cw.vars.filter (fun u => !decide (u ∈ assignedVars a)) :=
    List.mem_filter.2 ⟨hv1, by simpa using hv2⟩
  rcases hs : stableSort (selectLe cw doms)
      (cw.vars.filter (fun u => !decide (u ∈ assignedVars a))) with _ | ⟨h0, rest⟩
  · have : v ∈ stableSort (selectLe cw doms)
        (cw.vars.filter (fun u => !decide (u ∈ assignedVars a))) :=
      (mem_stableSort _ _ v).2 hmem
    rw [hs] at this
    exact absurd this (List.not_mem_nil v)
  · exact ⟨h0, rfl⟩

theorem select_eq_none {cw : Crossword} {doms : Domains} {a : Assignment}
    (h : ∀ v ∈ cw.vars, v ∈ assignedVars a) :
    select_unassigned_variable cw doms a = none := by
  unfold select_unassigned_variable
  have hnil : cw.vars.filter (fun u => !decide (u ∈ assignedVars a)) = [] := by
    rw [List.filter_eq_nil_iff]
    intro u hu
    simpa using h u hu
  rw [hnil]
  rfl

/-! ### Unfolding equations for the search engine -/

theorem btLoop_nil (cw : Crossword) (recurse : Domains → Assignment → Option Assignment × Domains)
    (var : Slot) (a : Assignment) (doms : Domains) :
    btLoop cw recurse var a [] doms = (none, doms) := rfl

theorem btLoop_cons (cw : Crossword) (recurse : Domains → Assignment → Option Assignment × Domains)
    (var : Slot) (a : Assignment) (value : Word) (rest : List Word) (doms : Domains) :
    btLoop cw recurse var a (value :: rest) doms =
      if consistent cw a then
        if (ac3 cw doms none).1 then
          match recurse (ac3 cw doms none).2 ((var, value) :: a) with
          | (some result, doms2) => (some result, doms2)
          | (none, doms2) => btLoop cw recurse var a rest doms2
        else btLoop cw recurse var a rest (ac3 cw doms none).2
      else btLoop cw recurse var a rest doms := rfl

theorem backtrackFuel_succ (cw : Crossword) (n : Nat) (doms : Domains) (a : Assignment) :
    backtrackFuel cw (n + 1) doms a =
      if assignment_complete cw a then (some a, doms)
      else
        match select_unassigned_variable cw doms a with
        | none => (none, doms)
        | some var =>
          btLoop cw (backtrackFuel cw n) var a (order_domain_values cw doms var a) doms := rfl

/-! ### The search never grows a domain -/

theorem btLoop_snd_sublist (cw : Crossword)
    (recurse : Domains → Assignment → Option Assignment × Domains)
    (hrec : ∀ (d2 : Domains) (a2 : Assignment) (v : Slot),
      ((recurse d2 a2).2 v).Sublist (d2 v))
    (var : Slot) (a : Assignment) :
    ∀ (values : List Word) (doms : Domains) (v : Slot),
      ((btLoop cw recurse var a values doms).2 v).Sublist (doms v) := by
  intro values
  induction values with
  | nil => intro doms v; exact List.Sublist.refl _
  | cons value rest ih =>
    intro doms v
    rw [btLoop_cons]
    by_cases hca : consistent cw a = true
    · rw [if_pos hca]
      have hac : ((ac3 cw doms none).2 v).Sublist (doms v) := ac3_snd_sublist cw doms none v
      by_cases hok : (ac3 cw doms none).1 = true
      · rw [if_pos hok]
        rcases hr : recurse (ac3 cw doms none).2 ((var, value) :: a) with ⟨o, d2⟩
        have hd2 : ∀ u, (d2 u).Sublist ((ac3 cw doms none).2 u) := by
          intro u
          have := hrec (ac3 cw doms none).2 ((var, value) :: a) u
          rw [hr] at this
          exact this
        rcases o with _ | res
        · exact ((ih d2 v).trans (hd2 v)).trans hac
        · exact (hd2 v).trans hac
      · rw [if_neg hok]
        exact (ih _ v).trans hac
    · rw [if_neg hca]
      exact ih doms v

theorem backtrackFuel_snd_sublist (cw : Crossword) :
    ∀ (n : Nat) (doms : Domains) (a : Assignment) (v : Slot),
      ((backtrackFuel cw n doms a).2 v).Sublist (doms v) := by
  intro n
  induction n with
  | zero => intro doms a v; exact List.Sublist.refl _
  | succ n ih =>
    intro doms a v
    rw [backtrackFuel_succ]
    by_cases hc : assignment_complete cw a = true
    · rw [if_pos hc]
    · rw [if_neg hc]
      rcases select_unassigned_variable cw doms a with _ | var
      · exact List.Sublist.refl _
      · exact btLoop_snd_sublist cw _ (fun d2 a2 u => ih d2 a2 u) var a _ doms v

/-! ### At an arc-consistent store the search leaves domains untouched -/

theorem btLoop_snd_eq (cw : Crossword) {doms : Domains}
    (harc : arcConsistentAll cw doms = true)
    (recurse : Domains → Assignment → Option Assignment × Domains)
    (hrec : ∀ a2 : Assignment, (recurse doms a2).2 = doms)
    (var : Slot) (a : Assignment) :
    ∀ values : List Word, (btLoop cw recurse var a values doms).2 = doms := by
  intro values
  induction values with
  | nil => rfl
  | cons value rest ih =>
    rw [btLoop_cons]
    have hac := ac3_of_arcConsistentAll harc
    by_cases hca : consistent cw a = true
    · rw [if_pos hca, hac]
      by_cases hok : cw.vars.all (fun v => !(doms v).isEmpty) = true
      · rw [if_pos hok]
        rcases hr : recurse doms ((var, value) :: a) with ⟨o, d2⟩
        have hd2 : d2 = doms := by
          have := hrec ((var, value) :: a)
          rw [hr] at this
          exact this
        rcases o with _ | res
        · subst hd2
          exact ih
        · exact hd2
      · rw [if_neg hok]
        exact ih
    · rw [if_neg hca]
      exact ih

theorem backtrackFuel_snd_eq (cw : Crossword) {doms : Domains}
    (harc : arcConsistentAll cw doms = true) :
    ∀ (n : Nat) (a : Assignment), (backtrackFuel cw n doms a).2 = doms := by
  intro n
  induction n with
  | zero => intro a; rfl
  | succ n ih =>
    intro a
    rw [backtrackFuel_succ]
    by_cases hc : assignment_complete cw a = true
    · rw [if_pos hc]
    · rw [if_neg hc]
      rcases select_unassigned_variable cw doms a with _ | var
      · rfl
      · exact btLoop_snd_eq cw harc _ (fun a2 => ih a2) var a _

/-! ### Fuel irrelevance for the search: the recursion depth is bounded by
the number of unassigned slots -/

/-- Number of declared slots not yet assigned. -/
def unassignedCount (cw : Crossword) (a : Assignment) : Nat :=
  (cw.vars.filter (fun v => !decide (v ∈ assignedVars a))).length

theorem unassignedCount_le (cw : Crossword) (a : Assignment) :
    unassignedCount cw a ≤ cw.vars.length :=
  List.length_filter_le _ _

theorem unassignedCount_lt {cw : Crossword} {a : Assignment} {var : Slot}
    (h1 : var ∈ cw.vars) (h2 : var ∉ assignedVars a) (w : Word) :
    unassignedCount cw ((var, w) :: a) < unassignedCount cw a := by
  unfold unassignedCount
  have hfil : cw.vars.filter (fun v => !decide (v ∈ assignedVars ((var, w) :: a)))
      = (cw.vars.filter (fun v => !decide (v ∈ assignedVars a))).filter
          (fun v => !decide (v = var)) := by
    rw [List.filter_filter]
    refine List.filter_congr (fun v _ => ?_)
    show (!decide (v ∈ assignedVars ((var, w) :: a)))
      = ((!decide (v = var)) && !decide (v ∈ assignedVars a))
    have : assignedVars ((var, w) :: a) = var :: assignedVars a := rfl
    rw [this]
    by_cases hv : v = var
    · subst hv
      simp
    · by_cases hm : v ∈ assignedVars a <;> simp [hv, hm]
  rw [hfil]
  rw [List.length_filter_lt_length_iff_exists]
  refine ⟨var, List.mem_filter.2 ⟨h1, by simpa using h2⟩, by simp⟩

theorem btLoop_congr (cw : Crossword)
    (r1 r2 : Domains → Assignment → Option Assignment × Domains) (var : Slot)
    (a : Assignment)
    (h : ∀ (d2 : Domains) (value : Word), r1 d2 ((var, value) :: a) = r2 d2 ((var, value) :: a)) :
    ∀ (values : List Word) (doms : Domains),
      btLoop cw r1 var a values doms = btLoop cw r2 var a values doms := by
  intro values
  induction values with
  | nil => intro doms; rfl
  | cons value rest ih =>
    intro doms
    rw [btLoop_cons, btLoop_cons]
    by_cases hca : consistent cw a = true
    · rw [if_pos hca, if_pos hca]
      by_cases hok : (ac3 cw doms none).1 = true
      · rw [if_pos hok, if_pos hok]
        rw [h (ac3 cw doms none).2 value]
        rcases r2 (ac3 cw doms none).2 ((var, value) :: a) with ⟨o, d2⟩
        rcases o with _ | res
        · exact ih d2
        · rfl
      · rw [if_neg hok, if_neg hok]
        exact ih _
    · rw [if_neg hca, if_neg hca]
      exact ih doms

theorem backtrackFuel_congr (cw : Crossword) :
    ∀ (m : Nat) {n : Nat} (doms : Domains) (a : Assignment),
      unassignedCount cw a < m → unassignedCount cw a < n →
      backtrackFuel cw m doms a = backtrackFuel cw n doms a := by
  intro m
  induction m with
  | zero => intro n doms a hm; omega
  | succ m ih =>
    intro n doms a hm hn
    rcases n with _ | n
    · omega
    rw [backtrackFuel_succ, backtrackFuel_succ]
    by_cases hc : assignment_complete cw a = true
    · rw [if_pos hc, if_pos hc]
    · rw [if_neg hc, if_neg hc]
      rcases hsel : select_unassigned_variable cw doms a with _ | var
      · rfl
      · obtain ⟨hv1, hv2, _, _⟩ := select_some_spec hsel
        refine btLoop_congr cw _ _ var a (fun d2 value => ?_) _ doms
        have hlt := unassignedCount_lt hv1 hv2 value
        exact ih d2 ((var, value) :: a) (by omega) (by omega)

theorem backtrack_eq_fuel (cw : Crossword) (doms : Domains) (a : Assignment) {n : Nat}
    (hn : unassignedCount cw a < n) :
    backtrack cw doms a = backtrackFuel cw n doms a := by
  unfold backtrack
  have h1 : unassignedCount cw a < cw.vars.length + 1 :=
    Nat.lt_succ_of_le (unassignedCount_le cw a)
  exact backtrackFuel_congr cw _ doms a h1 hn

/-! ### Extracting facts from a consistent assignment -/

theorem consistent_length {cw : Crossword} {a : Assignment} (h : consistent cw a = true) :
    ∀ p ∈ a, p.1.length = p.2.length := by
  unfold consistent at h
  rw [List.all_eq_true] at h
  intro p hp
  have := h p hp
  rw [Bool.and_eq_true] at this
  exact of_decide_eq_true this.1

theorem consistent_pair {cw : Crossword} {a : Assignment} (h : consistent cw a = true) :
    ∀ p ∈ a, ∀ q ∈ a, p.1 ≠ q.1 → ∀ i j, cw.overlaps p.1 q.1 = some (i, j) →
      p.2.get? i = q.2.get? j := by
  unfold consistent at h
  rw [List.all_eq_true] at h
  intro p hp q hq hne i j hov
  have h1 := h p hp
  rw [Bool.and_eq_true, List.all_eq_true] at h1
  have h2 := h1.2 q hq
  rw [if_neg hne, hov] at h2
  exact of_decide_eq_true h2

theorem consistent_of_sol {cw : Crossword} (σ : Slot → Word)
    (hlen : ∀ v ∈ cw.vars, (σ v).length = v.length)
    (hov : ∀ x ∈ cw.vars, ∀ y ∈ cw.vars, ∀ i j, cw.overlaps x y = some (i, j) →
      (σ x).get? i = (σ y).get? j)
    (a : Assignment) (ha : ∀ p ∈ a, p.1 ∈ cw.vars ∧ p.2 = σ p.1) :
    consistent cw a = true := by
  unfold consistent
  rw [List.all_eq_true]
  intro p hp
  obtain ⟨hp1, hp2⟩ := ha p hp
  rw [Bool.and_eq_true]
  constructor
  · rw [decide_eq_true_eq, hp2]
    exact (hlen p.1 hp1).symm
  · rw [List.all_eq_true]
    intro q hq
    obtain ⟨hq1, hq2⟩ := ha q hq
    by_cases hpq : p.1 = q.1
    · rw [if_pos hpq]
    · rw [if_neg hpq]
      rcases hov2 : cw.overlaps p.1 q.1 with _ | ⟨i, j⟩
      · rfl
      · rw [decide_eq_true_eq, hp2, hq2]
        exact hov p.1 hp1 q.1 hq1 i j hov2

/-! ### Completeness machinery: one successful branch makes the loop
succeed, and the branch following a satisfying assignment succeeds -/

theorem btLoop_fst_ne_none (cw : Crossword) {doms : Domains}
    (harc : arcConsistentAll cw doms = true)
    (hne : ∀ v ∈ cw.vars, doms v ≠ [])
    {a : Assignment} (hca : consistent cw a = true)
    (recurse : Domains → Assignment → Option Assignment × Domains)
    (hrecd : ∀ a2 : Assignment, (recurse doms a2).2 = doms)
    (var : Slot) (w0 : Word) (hw0 : (recurse doms ((var, w0) :: a)).1 ≠ none) :
    ∀ values : List Word, w0 ∈ values →
      (btLoop cw recurse var a values doms).1 ≠ none := by
  intro values
  induction values with
  | nil => intro hmem; exact absurd hmem (List.not_mem_nil w0)
  | cons value rest ih =>
    intro hmem
    rw [btLoop_cons, if_pos hca]
    have hac := ac3_of_arcConsistentAll harc
    rw [hac]
    have hok : cw.vars.all (fun v => !(doms v).isEmpty) = true := by
      rw [List.all_eq_true]
      intro v hv
      rcases he : (doms v).isEmpty
      · rfl
      · exact absurd (List.isEmpty_iff.1 he) (hne v hv)
    rw [if_pos hok]
    rcases hr : recurse doms ((var, value) :: a) with ⟨o, d2⟩
    have hd2 : d2 = doms := by
      have := hrecd ((var, value) :: a)
      rw [hr] at this
      exact this
    rcases o with _ | res
    · subst hd2
      rcases List.mem_cons.1 hmem with rfl | hmem2
      · rw [hr] at hw0
        exact absurd rfl hw0
      · exact ih hmem2
    · intro habs
      exact Option.some_ne_none res habs

theorem backtrackFuel_fst_ne_none {cw : Crossword} {doms : Domains} (σ : Slot → Word)
    (hlen : ∀ v ∈ cw.vars, (σ v).length = v.length)
    (hov : ∀ x ∈ cw.vars, ∀ y ∈ cw.vars, ∀ i j, cw.overlaps x y = some (i, j) →
      (σ x).get? i = (σ y).get? j)
    (hσd : ∀ v ∈ cw.vars, σ v ∈ doms v)
    (harc : arcConsistentAll cw doms = true) :
    ∀ (n : Nat) (a : Assignment), unassignedCount cw a < n →
      (∀ p ∈ a, p.1 ∈ cw.vars ∧ p.2 = σ p.1) →
      (backtrackFuel cw n doms a).1 ≠ none := by
  intro n
  induction n with
  | zero => intro a hm; omega
  | succ n ih =>
    intro a hm hinv
    rw [backtrackFuel_succ]
    by_cases hc : assignment_complete cw a = true
    · rw [if_pos hc]
      exact Option.some_ne_none a
    · rw [if_neg hc]
      have hkeys : (assignedVars a).all (fun v => decide (v ∈ cw.vars)) = true := by
        rw [List.all_eq_true]
        intro v hv
        obtain ⟨p, hp, hpv⟩ := List.mem_map.1 hv
        rw [decide_eq_true_eq, ← hpv]
        exact (hinv p hp).1
      have hun : ∃ v ∈ cw.vars, v ∉ assignedVars a := by
        by_contra habs
        push_neg at habs
        refine hc ?_
        unfold assignment_complete
        rw [Bool.and_eq_true]
        refine ⟨hkeys, ?_⟩
        rw [List.all_eq_true]
        intro v hv
        rw [decide_eq_true_eq]
        exact habs v hv
      obtain ⟨var, hsel⟩ := select_eq_some doms hun
      rw [hsel]
      obtain ⟨hv1, hv2, _, _⟩ := select_some_spec hsel
      have hca : consistent cw a = true := consistent_of_sol σ hlen hov a hinv
      have hmem : σ var ∈ order_domain_values cw doms var a := by
        unfold order_domain_values
        rw [mem_stableSort]
        exact hσd var hv1
      refine btLoop_fst_ne_none cw harc ?_ hca _ ?_ var (σ var) ?_ _ hmem
      · intro v hv
        exact List.ne_nil_of_mem (hσd v hv)
      · intro a2
        exact backtrackFuel_snd_eq cw harc n a2
      · refine ih ((var, σ var) :: a) ?_ ?_
        · have := unassignedCount_lt hv1 hv2 (σ var)
          omega
        · intro p hp
          rcases List.mem_cons.1 hp with rfl | hp2
          · exact ⟨hv1, rfl⟩
          · exact hinv p hp2

/-! ### From a complete consistent assignment list to a solution function -/

theorem exists_entry_of_complete {cw : Crossword} {σl : Assignment}
    (hcomp : assignment_complete cw σl = true) {v : Slot} (hv : v ∈ cw.vars) :
    ∃ p, p ∈ σl ∧ p.1 = v := by
  unfold assignment_complete at hcomp
  rw [Bool.and_eq_true] at hcomp
  have h2 := hcomp.2
  rw [List.all_eq_true] at h2
  have h3 := h2 v hv
  rw [decide_eq_true_eq] at h3
  obtain ⟨p, hp, hpv⟩ := List.mem_map.1 h3
  exact ⟨p, hp, hpv⟩

theorem exists_solfun_of_list {cw : Crossword} (hwf : cw.Wf) {σl : Assignment}
    (hcomp : assignment_complete cw σl = true) (hcons : consistent cw σl = true)
    (hvoc : ∀ p ∈ σl, p.2 ∈ cw.words) :
    ∃ σ : Slot → Word,
      (∀ v ∈ cw.vars, (σ v).length = v.length) ∧
      (∀ x ∈ cw.vars, ∀ y ∈ cw.vars, ∀ i j, cw.overlaps x y = some (i, j) →
        (σ x).get? i = (σ y).get? j) ∧
      (∀ v ∈ cw.vars, σ v ∈ cw.words) := by
  classical
  refine ⟨fun v => if h : ∃ p, p ∈ σl ∧ p.1 = v then h.choose.2 else [], ?_, ?_, ?_⟩
  · intro v hv
    have h : ∃ p, p ∈ σl ∧ p.1 = v := exists_entry_of_complete hcomp hv
    simp only [dif_pos h]
    have hlen := consistent_length hcons h.choose h.choose_spec.1
    rw [← hlen, h.choose_spec.2]
  · intro x hx y hy i j hov
    by_cases hxy : x = y
    · subst hxy
      rw [hwf.1 x hx] at hov
      exact absurd hov (Option.noConfusion)
    · have h1 : ∃ p, p ∈ σl ∧ p.1 = x := exists_entry_of_complete hcomp hx
      have h2 : ∃ p, p ∈ σl ∧ p.1 = y := exists_entry_of_complete hcomp hy
      simp only [dif_pos h1, dif_pos h2]
      have hne : h1.choose.1 ≠ h2.choose.1 := by
        rw [h1.choose_spec.2, h2.choose_spec.2]
        exact hxy
      have hov2 : cw.overlaps h1.choose.1 h2.choose.1 = some (i, j) := by
        rw [h1.choose_spec.2, h2.choose_spec.2]
        exact hov
      exact consistent_pair hcons h1.choose h1.choose_spec.1 h2.choose
        h2.choose_spec.1 hne i j hov2
  · intro v hv
    have h : ∃ p, p ∈ σl ∧ p.1 = v := exists_entry_of_complete hcomp hv
    simp only [dif_pos h]
    exact hvoc h.choose h.choose_spec.1

/-! ### The domain store produced by the solve pipeline -/

theorem ac3_none_snd (cw : Crossword) (doms : Domains) :
    (ac3 cw doms none).2 = ac3Run cw doms (allArcs cw) := rfl

theorem mem_enforce_iff {cw : Crossword} {doms : Domains} {v : Slot} {w : Word} :
    w ∈ enforce_node_consistency cw doms v ↔ w ∈ doms v ∧ w.length = v.length := by
  unfold enforce_node_consistency
  rw [List.mem_filter, decide_eq_true_eq]

theorem solve_eq_backtrack (cw : Crossword) :
    solve cw = (backtrack cw
      (ac3 cw (enforce_node_consistency cw (initialDomains cw)) none).2 []).1 := rfl

/-! ## Claim theorems -/

/-- C1: the claim states that any assignment returned by `solve` is complete
and passes the Consistency Checker.  The code violates it: `backtrack`
checks `consistent(assignment)` BEFORE inserting the tentative value (the
candidate itself is never checked), so on `cw1` the solver returns the
complete assignment {slotB ↦ "ab", slotA ↦ "ab"} even though the two words
disagree at the overlap.  This theorem evaluates the code at the failing
input: the returned assignment is complete but fails `consistent`. -/
theorem solve_returns_inconsistent_assignment :
    solve cw1 = some [(slotB, wordAB), (slotA, wordAB)] ∧
    assignment_complete cw1 [(slotB, wordAB), (slotA, wordAB)] = true ∧
    consistent cw1 [(slotB, wordAB), (slotA, wordAB)] = false := by decide

/-- C3: the claim states a candidate is added only after checking that the
EXTENDED assignment is consistent.  The code checks only the assignment
without the candidate: on `cw1`, with {slotA ↦ "ab"} already assigned, the
candidate "ab" for `slotB` makes the extension inconsistent, yet it is
added and even survives into the returned assignment. -/
theorem backtrack_adds_inconsistent_tentative_value :
    consistent cw1 [(slotA, wordAB)] = true ∧
    consistent cw1 [(slotB, wordAB), (slotA, wordAB)] = false ∧
    solve cw1 = some [(slotB, wordAB), (slotA, wordAB)] := by decide

/-- C2: completeness of the solver.  If a complete consistent assignment
over the vocabulary exists, `solve` never returns the unsatisfiable signal
`none` (on a well-formed structural model).  Note the returned assignment
need not itself be consistent, see C1. -/
theorem solve_completeness (cw : Crossword) (hwf : cw.Wf) (σl : Assignment)
    (hcomp : assignment_complete cw σl = true) (hcons : consistent cw σl = true)
    (hvoc : ∀ p ∈ σl, p.2 ∈ cw.words) : solve cw ≠ none := by
  obtain ⟨σ, hlen, hov, hwords⟩ := exists_solfun_of_list hwf hcomp hcons hvoc
  have hσd1 : ∀ v ∈ cw.vars, σ v ∈ enforce_node_consistency cw (initialDomains cw) v := by
    intro v hv
    rw [mem_enforce_iff]
    exact ⟨hwords v hv, hlen v hv⟩
  have hσd2 : ∀ v ∈ cw.vars,
      σ v ∈ (ac3 cw (enforce_node_consistency cw (initialDomains cw)) none).2 v := by
    rw [ac3_none_snd]
    exact ac3Run_mem_preserved σ hov _ hσd1
  have harc : arcConsistentAll cw
      (ac3 cw (enforce_node_consistency cw (initialDomains cw)) none).2 = true := by
    rw [ac3_none_snd]
    exact ac3Run_arcConsistentAll hwf _
  rw [solve_eq_backtrack]
  unfold backtrack
  refine backtrackFuel_fst_ne_none σ hlen hov hσd2 harc _ []
    (Nat.lt_succ_of_le (unassignedCount_le cw [])) ?_
  intro p hp
  exact absurd hp (List.not_mem_nil p)

/-- Witness for C2 at the concrete crossword `cw1`, whose assignment
{slotA ↦ "ab", slotB ↦ "ba"} is complete and consistent. -/
theorem solve_completeness_witness :
    cw1.Wf ∧
    assignment_complete cw1 [(slotA, wordAB), (slotB, wordBA)] = true ∧
    consistent cw1 [(slotA, wordAB), (slotB, wordBA)] = true ∧
    (∀ p ∈ [(slotA, wordAB), (slotB, wordBA)], p.2 ∈ cw1.words) ∧
    solve cw1 ≠ none :=
  ⟨by decide, by decide, by decide, by decide,
    solve_completeness cw1 (by decide) [(slotA, wordAB), (slotB, wordBA)]
      (by decide) (by decide) (by decide)⟩

/-- C4: backtrack restoration of the Domain Store.  The search of `solve`
always starts at the store produced by the global AC-3 pass, which is
arc-consistent (first conjunct); on any arc-consistent store, every
recursive call of `backtrack` (each of which receives the same store)
returns the store exactly unchanged (second conjunct), so after a failed
candidate the per-slot domain mapping is identical to its state before the
candidate was tried. -/
theorem backtrack_restores_domain_store (cw : Crossword) (hwf : cw.Wf) :
    arcConsistentAll cw
      (ac3 cw (enforce_node_consistency cw (initialDomains cw)) none).2 = true ∧
    (∀ doms : Domains, arcConsistentAll cw doms = true →
      ∀ a : Assignment, (backtrack cw doms a).2 = doms) := by
  constructor
  · rw [ac3_none_snd]
    exact ac3Run_arcConsistentAll hwf _
  · intro doms harc a
    unfold backtrack
    exact backtrackFuel_snd_eq cw harc _ a

/-- Witness for C4 at the concrete crossword `cw1` and its (already
arc-consistent) initial store. -/
theorem backtrack_restores_domain_store_witness :
    cw1.Wf ∧ arcConsistentAll cw1 (initialDomains cw1) = true ∧
    (backtrack cw1 (initialDomains cw1) []).2 = initialDomains cw1 :=
  ⟨by decide, by decide,
    (backtrack_restores_domain_store cw1 (by decide)).2 (initialDomains cw1) (by decide) []⟩

/-- C5 counterexample: the claim promises, for EVERY initial arc queue,
that a `true` return means every pair of neighboring slots is
arc-consistent.  With the empty queue on `cw2` (two crossing slots whose
domains share no letter at the overlap), `ac3` returns `true` with all
domains non-empty, yet the neighboring pair is not arc-consistent. -/
theorem ac3_true_not_arc_consistent_counterexample :
    slotB ∈ cw2.neighbors slotA ∧
    (ac3 cw2 (initialDomains cw2) (some [])).1 = true ∧
    (∀ v ∈ cw2.vars, (ac3 cw2 (initialDomains cw2) (some [])).2 v ≠ []) ∧
    arcConsistentAll cw2 (ac3 cw2 (initialDomains cw2) (some [])).2 = false := by
  decide

/-- Helper: a Boolean non-emptiness test unfolded. -/
theorem bnot_isEmpty_iff {l : List α} : (!l.isEmpty) = true ↔ l ≠ [] := by
  cases l <;> simp

/-- C5 amended: for every store and every initial queue, `ac3` returns
`true` iff every slot domain is non-empty at termination (domains only
shrink, so a domain that becomes empty at any point is empty at
termination); and when invoked with the DEFAULT queue of all arcs, the
final store is additionally arc-consistent for every neighboring pair. -/
theorem ac3_return_contract_amended (cw : Crossword) (hwf : cw.Wf) (doms : Domains)
    (arcs : Option (List (Slot × Slot))) :
    ((ac3 cw doms arcs).1 = true ↔ ∀ v ∈ cw.vars, (ac3 cw doms arcs).2 v ≠ []) ∧
    (∀ v : Slot, ((ac3 cw doms arcs).2 v).Sublist (doms v)) ∧
    (arcs = none → arcConsistentAll cw (ac3 cw doms arcs).2 = true) := by
  refine ⟨?_, fun v => ac3_snd_sublist cw doms arcs v, ?_⟩
  · have h1 : (ac3 cw doms arcs).1
        = cw.vars.all (fun v => !((ac3 cw doms arcs).2 v).isEmpty) := by
      rcases arcs with _ | q <;> rfl
    rw [h1, List.all_eq_true]
    constructor
    · intro h v hv
      exact bnot_isEmpty_iff.1 (h v hv)
    · intro h v hv
      exact bnot_isEmpty_iff.2 (h v hv)
  · intro harcs
    subst harcs
    rw [ac3_none_snd]
    exact ac3Run_arcConsistentAll hwf doms

/-- Witness for the amended C5 at `cw1` with the default queue. -/
theorem ac3_return_contract_amended_witness :
    cw1.Wf ∧
    ((ac3 cw1 (initialDomains cw1) none).1 = true ↔
      ∀ v ∈ cw1.vars, (ac3 cw1 (initialDomains cw1) none).2 v ≠ []) ∧
    ((none : Option (List (Slot × Slot))) = none →
      arcConsistentAll cw1 (ac3 cw1 (initialDomains cw1) none).2 = true) :=
  ⟨by decide,
    (ac3_return_contract_amended cw1 (by decide) (initialDomains cw1) none).1,
    (ac3_return_contract_amended cw1 (by decide) (initialDomains cw1) none).2.2⟩

/-- C6: the revise contract.  For a distinct pair (x, y): with no overlap
defined, revise is a no-op returning the no-change flag; with an overlap
(i, j), a word stays in the domain of x exactly when some word of the
domain of y agrees with it at the overlap indices; every other slot domain
(in particular the one of y) is untouched; and the flag is `true` iff at
least one word was removed. -/
theorem revise_spec (cw : Crossword) (doms : Domains) (x y : Slot) (hxy : x ≠ y) :
    (cw.overlaps x y = none → revise cw doms x y = (false, doms)) ∧
    (∀ i j, cw.overlaps x y = some (i, j) →
      ∀ w : Word, w ∈ (revise cw doms x y).2 x ↔
        w ∈ doms x ∧ ∃ wy ∈ doms y, w.get? i = wy.get? j) ∧
    (∀ v : Slot, v ≠ x → (revise cw doms x y).2 v = doms v) ∧
    ((revise cw doms x y).1 = true ↔ ∃ w ∈ doms x, w ∉ (revise cw doms x y).2 x) := by
  refine ⟨fun h => revise_of_overlap_none h, ?_, fun v hv => revise_snd_apply_ne hv, ?_⟩
  · intro i j hov w
    rw [revise_mem_snd_self hov]
    unfold hasSupport
    rw [List.any_eq_true]
    constructor
    · rintro ⟨h1, wy, h2, h3⟩
      exact ⟨h1, wy, h2, of_decide_eq_true h3⟩
    · rintro ⟨h1, wy, h2, h3⟩
      exact ⟨h1, wy, h2, decide_eq_true h3⟩
  · constructor
    · intro h
      rcases hov : cw.overlaps x y with _ | ⟨i, j⟩
      · rw [revise_of_overlap_none hov] at h
        exact absurd h (by simp)
      · obtain ⟨w, hw, hws⟩ := (revise_fst_true_iff hov).1 h
        refine ⟨w, hw, fun hmem => ?_⟩
        have := ((revise_mem_snd_self hov w).1 hmem).2
        rw [hws] at this
        exact Bool.false_ne_true this
    · intro h
      cases hb : (revise cw doms x y).1
      · obtain ⟨w, hw, hmem⟩ := h
        rw [revise_snd_of_fst_false hb] at hmem
        exact absurd hw hmem
      · rfl

/-- Witness for C6 at `cw2`, where revise prunes the whole domain of
`slotA` relative to `slotB`. -/
theorem revise_spec_witness :
    slotA ≠ slotB ∧
    (∀ v : Slot, v ≠ slotA →
      (revise cw2 (initialDomains cw2) slotA slotB).2 v = initialDomains cw2 v) ∧
    ((revise cw2 (initialDomains cw2) slotA slotB).1 = true ↔
      ∃ w ∈ initialDomains cw2 slotA,
        w ∉ (revise cw2 (initialDomains cw2) slotA slotB).2 slotA) :=
  ⟨by decide,
    (revise_spec cw2 (initialDomains cw2) slotA slotB (by decide)).2.2.1,
    (revise_spec cw2 (initialDomains cw2) slotA slotB (by decide)).2.2.2⟩

/-- C7: node consistency.  After `enforce_node_consistency` on the initial
store, a word is in a slot domain exactly when it is a vocabulary word of
the right length (no false removals); and `revise`, `ac3` and the search
only ever remove words from domains, so the length invariant stays true for
the store threaded through the whole pipeline and search. -/
theorem node_consistency_spec (cw : Crossword) :
    (∀ v ∈ cw.vars, ∀ w : Word,
      w ∈ enforce_node_consistency cw (initialDomains cw) v ↔
        w ∈ cw.words ∧ w.length = v.length) ∧
    (∀ (doms : Domains) (x y v : Slot), ((revise cw doms x y).2 v).Sublist (doms v)) ∧
    (∀ (doms : Domains) (arcs : Option (List (Slot × Slot))) (v : Slot),
      ((ac3 cw doms arcs).2 v).Sublist (doms v)) ∧
    (∀ (doms : Domains) (a : Assignment) (v : Slot),
      ((backtrack cw doms a).2 v).Sublist (doms v)) ∧
    (∀ doms : Domains, (∀ v ∈ cw.vars, ∀ w ∈ doms v, w.length = v.length) →
      ∀ (a : Assignment), ∀ v ∈ cw.vars,
        ∀ w ∈ (backtrack cw (ac3 cw doms none).2 a).2 v, w.length = v.length) := by
  refine ⟨?_, fun doms x y v => revise_snd_sublist cw doms x y v,
    fun doms arcs v => ac3_snd_sublist cw doms arcs v,
    fun doms a v => backtrackFuel_snd_sublist cw _ doms a v, ?_⟩
  · intro v _ w
    rw [mem_enforce_iff]
    unfold initialDomains
    exact Iff.rfl
  · intro doms hlen a v hv w hw
    have h1 : w ∈ (ac3 cw doms none).2 v :=
      (backtrackFuel_snd_sublist cw _ _ a v).subset hw
    have h2 : w ∈ doms v := (ac3_snd_sublist cw doms none v).subset h1
    exact hlen v hv w h2

/-- Witness for C7 at `cw1`. -/
theorem node_consistency_spec_witness :
    (wordAB ∈ enforce_node_consistency cw1 (initialDomains cw1) slotA ↔
      wordAB ∈ cw1.words ∧ wordAB.length = slotA.length) ∧
    ((backtrack cw1 (initialDomains cw1) []).2 slotA).Sublist (initialDomains cw1 slotA) :=
  ⟨(node_consistency_spec cw1).1 slotA (by decide) wordAB,
    (node_consistency_spec cw1).2.2.2.1 (initialDomains cw1) [] slotA⟩

/-- C8: the variable selection heuristic.  Whenever some declared slot is
unassigned, the selection returns an unassigned slot of minimal current
domain size, and of maximal neighbor count among those of minimal size;
when every declared slot is assigned it returns `none`. -/
theorem select_unassigned_variable_spec (cw : Crossword) (doms : Domains) (a : Assignment) :
    ((∃ v ∈ cw.vars, v ∉ assignedVars a) →
      ∃ var, select_unassigned_variable cw doms a = some var ∧ var ∈ cw.vars ∧
        var ∉ assignedVars a ∧
        (∀ u ∈ cw.vars, u ∉ assignedVars a → (doms var).length ≤ (doms u).length) ∧
        (∀ u ∈ cw.vars, u ∉ assignedVars a → (doms u).length = (doms var).length →
          (cw.neighbors u).length ≤ (cw.neighbors var).length)) ∧
    ((∀ v ∈ cw.vars, v ∈ assignedVars a) →
      select_unassigned_variable cw doms a = none) := by
  constructor
  · intro h
    obtain ⟨var, hsel⟩ := select_eq_some doms h
    obtain ⟨h1, h2, h3, h4⟩ := select_some_spec hsel
    exact ⟨var, hsel, h1, h2, h3, h4⟩
  · exact select_eq_none

/-- Witness for C8 at `cw1` with the empty assignment. -/
theorem select_unassigned_variable_spec_witness :
    (∃ v ∈ cw1.vars, v ∉ assignedVars ([] : Assignment)) ∧
    (∃ var, select_unassigned_variable cw1 (initialDomains cw1) [] = some var ∧
      var ∈ cw1.vars ∧ var ∉ assignedVars ([] : Assignment) ∧
      (∀ u ∈ cw1.vars, u ∉ assignedVars ([] : Assignment) →
        (initialDomains cw1 var).length ≤ (initialDomains cw1 u).length) ∧
      (∀ u ∈ cw1.vars, u ∉ assignedVars ([] : Assignment) →
        (initialDomains cw1 u).length = (initialDomains cw1 var).length →
        (cw1.neighbors u).length ≤ (cw1.neighbors var).length)) :=
  ⟨by decide,
    (select_unassigned_variable_spec cw1 (initialDomains cw1) []).1 (by decide)⟩

/-- C9: AC-3 idempotence at the fixed point.  After a default-queue run of
`ac3` that returns `true` with final store `d2`, immediately re-running
`ac3` with the default queue returns `true` and the store `d2` itself:
no value is removed from any slot domain. -/
theorem ac3_idempotent_at_fixed_point (cw : Crossword) (hwf : cw.Wf) (d d2 : Domains)
    (h : ac3 cw d none = (true, d2)) : ac3 cw d2 none = (true, d2) := by
  have hd2 : (ac3 cw d none).2 = d2 := by rw [h]
  have harc : arcConsistentAll cw d2 = true := by
    rw [← hd2, ac3_none_snd]
    exact ac3Run_arcConsistentAll hwf d
  rw [ac3_of_arcConsistentAll harc]
  have h1 : (ac3 cw d none).1 = true := by rw [h]
  have h2 : cw.vars.all (fun v => !(d2 v).isEmpty) = true := by
    rw [← hd2]
    exact h1
  rw [h2]

/-- Witness for C9: the default AC-3 run on `cw1` returns `true`, and
re-running it is the identity. -/
theorem ac3_idempotent_at_fixed_point_witness :
    cw1.Wf ∧
    ac3 cw1 (initialDomains cw1) none = (true, (ac3 cw1 (initialDomains cw1) none).2) ∧
    ac3 cw1 (ac3 cw1 (initialDomains cw1) none).2 none =
      (true, (ac3 cw1 (initialDomains cw1) none).2) := by
  have h1 : (ac3 cw1 (initialDomains cw1) none).1 = true := by decide
  have hfix : ac3 cw1 (initialDomains cw1) none
      = (true, (ac3 cw1 (initialDomains cw1) none).2) := by
    rw [← h1]
  exact ⟨by decide, hfix, ac3_idempotent_at_fixed_point cw1 (by decide) _ _ hfix⟩

/-- C10: degenerate input.  If some slot domain is empty right after node
consistency, the following default AC-3 pass returns `false` (reporting
unsatisfiability before the search starts), and `solve` returns the
unsatisfiable signal `none` (the MRV heuristic selects a slot with an empty
domain first, so the search fails immediately). -/
theorem solve_empty_domain_unsat (cw : Crossword)
    (h : ∃ v ∈ cw.vars, enforce_node_consistency cw (initialDomains cw) v = []) :
    (ac3 cw (enforce_node_consistency cw (initialDomains cw)) none).1 = false ∧
    solve cw = none := by
  obtain ⟨v0, hv0, hd⟩ := h
  have hsub : ((ac3 cw (enforce_node_consistency cw (initialDomains cw)) none).2 v0).Sublist
      (enforce_node_consistency cw (initialDomains cw) v0) :=
    ac3_snd_sublist cw _ none v0
  have hempty : (ac3 cw (enforce_node_consistency cw (initialDomains cw)) none).2 v0 = [] := by
    rw [hd] at hsub
    exact List.sublist_nil.1 hsub
  constructor
  · cases hb : (ac3 cw (enforce_node_consistency cw (initialDomains cw)) none).1
    · rfl
    · have hall : cw.vars.all (fun v =>
          !((ac3 cw (enforce_node_consistency cw (initialDomains cw)) none).2 v).isEmpty)
          = true := hb
      rw [List.all_eq_true] at hall
      have h2 := hall v0 hv0
      rw [hempty] at h2
      exact absurd h2 (by simp)
  · rw [solve_eq_backtrack]
    show (backtrackFuel cw (cw.vars.length + 1)
      (ac3 cw (enforce_node_consistency cw (initialDomains cw)) none).2 []).1 = none
    rw [backtrackFuel_succ]
    have hcompl : ¬assignment_complete cw [] = true := by
      intro hb
      unfold assignment_complete at hb
      rw [Bool.and_eq_true] at hb
      have h3 := hb.2
      rw [List.all_eq_true] at h3
      have h4 := h3 v0 hv0
      rw [decide_eq_true_eq] at h4
      exact absurd h4 (List.not_mem_nil v0)
    rw [if_neg hcompl]
    have hun : ∃ u ∈ cw.vars, u ∉ assignedVars ([] : Assignment) :=
      ⟨v0, hv0, List.not_mem_nil v0⟩
    obtain ⟨var, hsel⟩ := select_eq_some
      (ac3 cw (enforce_node_consistency cw (initialDomains cw)) none).2 hun
    rw [hsel]
    obtain ⟨hv1, _, hmin, _⟩ := select_some_spec hsel
    have hvar_empty : (ac3 cw (enforce_node_consistency cw (initialDomains cw)) none).2 var
        = [] := by
      have h4 := hmin v0 hv0 (List.not_mem_nil v0)
      rw [hempty] at h4
      exact List.eq_nil_of_length_eq_zero (Nat.le_zero.1 h4)
    have hvals : order_domain_values cw
        (ac3 cw (enforce_node_consistency cw (initialDomains cw)) none).2 var [] = [] := by
      unfold order_domain_values
      rw [hvar_empty]
      rfl
    show (btLoop cw (backtrackFuel cw cw.vars.length) var []
      (order_domain_values cw
        (ac3 cw (enforce_node_consistency cw (initialDomains cw)) none).2 var [])
      (ac3 cw (enforce_node_consistency cw (initialDomains cw)) none).2).1 = none
    rw [hvals, btLoop_nil]

/-- Witness for C10: the single length-4 slot of `cw3` has an empty domain
after node consistency, so AC-3 reports `false` and `solve` returns the
unsatisfiable signal. -/
theorem solve_empty_domain_unsat_witness :
    (∃ v ∈ cw3.vars, enforce_node_consistency cw3 (initialDomains cw3) v = []) ∧
    ((ac3 cw3 (enforce_node_consistency cw3 (initialDomains cw3)) none).1 = false ∧
      solve cw3 = none) :=
  ⟨by decide, solve_empty_domain_unsat cw3 (by decide)⟩
